import Mathlib

/-!
Verification of the gene-conversion detector in src/find_gcs.py.

The script reads a VCF variant stream and an IBD cluster-assignment stream,
synchronizes them by position, tabulates per-cluster allele counts, filters by
minor allele frequency, and reports clusters that are mixed between two
candidate alleles, discriminating structural deletions via homozygosity.

The embedding below translates the script into pure Lean functions:
machine floats used by the script for allele frequencies are modelled by
rationals (the script only compares ratios of small integers, and the claims
under study concern the comparison operators, not rounding), and the printed
output is modelled by explicit result structures holding the report lines,
diagnostic count, deletion-counter increment and histogram updates.
-/

namespace FindGcs

/-- Constant from line 19 of the script: minimum cluster size. -/
def minclustsize : ℕ := 4

/-- Constant from line 20 of the script: minimum subcluster (partition) size. -/
def minpartsize : ℕ := 2

/-- Constant from line 21 of the script: deletion hypothesis enabled (1 = true). -/
def deletion : ℕ := 1

/-- Constant from line 18 of the script: fixed upper bound on the minor allele
frequency. -/
def maxmaf : ℚ := 1

/-- Single space separator used between printed tokens. -/
def spaceSep : String := " "

/-- Separator between individual index and haplotype side in printed identities. -/
def colonSep : String := ":"

/-- Embeds is_homozygous (script lines 37-40): the individual carrying haplotype
hapindex is homozygous when its other haplotype carries the same allele.
Haplotypes 0..nindiv-1 are side 0, nindiv..2*nindiv-1 are side 1. -/
def is_homozygous (valleles : List ℕ) (nindiv hapindex : ℕ) : Bool :=
  let otherindex := if hapindex < nindiv then hapindex + nindiv else hapindex - nindiv
  valleles.getD hapindex 0 == valleles.getD otherindex 0

/-- The haplotype indices assigned to cluster j (script line 62:
hapindices = [i for i in range(nhaps) if oclust[i]==j]). -/
def clusterMembers (oclust : List ℕ) (j : ℕ) : List ℕ :=
  (List.range oclust.length).filter (fun i => oclust.getD i 0 == j)

/-- The allele codes whose in-cluster count exceeds 1 (script line 66:
whichalleles = [i for i in range(len(x)) if x[i]>1]), in ascending code order. -/
def candAlleles (x : List ℕ) : List ℕ :=
  (List.range x.length).filter (fun i => decide (1 < x.getD i 0))

/-- One report line of the script (lines 71-74), kept as structured data:
the variant position and the two subclusters of haplotype indices. -/
structure ReportLine where
  pos : ℤ
  sub0 : List ℕ
  sub1 : List ℕ
deriving DecidableEq

/-- Result of processing one cluster at one variant (body of the loop in
print_gcs, script lines 53-75): the optional report, whether the
more-than-two-alleles diagnostic was printed, the deletion-counter increment,
and the optional histogram key. -/
structure ClusterResult where
  report : Option ReportLine
  diag : Bool
  ndelInc : ℕ
  histKey : Option ℕ
deriving DecidableEq

/-- Embeds one iteration of the loop in print_gcs (script lines 53-75) for
cluster j with allele-count row x and cluster size z. -/
def processCluster (valleles oclust : List ℕ) (nindiv j : ℕ) (x : List ℕ) (z : ℕ)
    (pos : ℤ) : ClusterResult :=
  if z < minclustsize then ⟨none, false, 0, none⟩ else
  let doubleplus := x.countP (fun y => decide (minpartsize ≤ y))
  if doubleplus ≤ 1 then ⟨none, false, 0, none⟩ else
  let diag := decide (2 < doubleplus)
  let hapindices := clusterMembers oclust j
  if deletion ≠ 0 ∧ hapindices.all (fun h => is_homozygous valleles nindiv h) = true then
    ⟨none, diag, 1, none⟩
  else
    let whichalleles := candAlleles x
    let a0 := whichalleles.getD 0 0
    let a1 := whichalleles.getD 1 0
    let which0 := (List.range hapindices.length).filter
      (fun i => valleles.getD (hapindices.getD i 0) 0 == a0)
    let which1 := (List.range hapindices.length).filter
      (fun i => valleles.getD (hapindices.getD i 0) 0 == a1)
    let hapindices0 := which0.map (fun i => hapindices.getD i 0)
    let hapindices1 := which1.map (fun i => hapindices.getD i 0)
    ⟨some ⟨pos, hapindices0, hapindices1⟩, diag, 0, some hapindices.length⟩

/-- Formats one haplotype identity (script line 73): individual index, colon,
haplotype side. The script computes these with exact float arithmetic on
integral values; nindiv here is the integer value of its local nhaps/2. -/
def formatHap (nindiv i : ℕ) : String :=
  toString (i % nindiv) ++ colonSep ++ toString (i / nindiv)

/-- The tokens of one report line (script lines 71-73): position, the two
subcluster sizes, then the formatted identities of subcluster 0 followed by
subcluster 1. -/
def reportTokens (nindiv : ℕ) (r : ReportLine) : List String :=
  [toString r.pos, toString r.sub0.length, toString r.sub1.length]
    ++ (r.sub0 ++ r.sub1).map (formatHap nindiv)

/-- The full printed report line: the script prints every token with a trailing
single space (print with end set to one space), then a newline, so the line is
the space-intercalation of the tokens followed by one trailing space. -/
def reportLine (nindiv : ℕ) (r : ReportLine) : String :=
  String.intercalate spaceSep (reportTokens nindiv r) ++ spaceSep

/-- Accumulated result of print_gcs over all clusters of one variant (script
lines 51-75): report lines, number of more-than-two-alleles diagnostics,
deletion-counter increment, and the list of histogram keys added. -/
structure GcsResult where
  reports : List ReportLine
  ndiag : ℕ
  ndel : ℕ
  hist : List ℕ
deriving DecidableEq

/-- Embeds print_gcs (script lines 51-75): iterates over
zip(range(len(oclust)), counts, clustsize), so over cluster ids up to the
shortest of the three, accumulating each cluster result. -/
def print_gcs (valleles oclust : List ℕ) (nindiv : ℕ) (counts : List (List ℕ))
    (pos : ℤ) (clustsize : List ℕ) : GcsResult :=
  let m := min (min oclust.length counts.length) clustsize.length
  (List.range m).foldl (fun acc j =>
    let c := processCluster valleles oclust nindiv j (counts.getD j []) (clustsize.getD j 0) pos
    { reports := acc.reports ++ c.report.toList
      ndiag := acc.ndiag + (if c.diag then 1 else 0)
      ndel := acc.ndel + c.ndelInc
      hist := acc.hist ++ c.histKey.toList }) ⟨[], 0, 0, []⟩

/-- Number of distinct alleles observed (script lines 100-101:
length of set(valleles)). -/
def nallelesOf (valleles : List ℕ) : ℕ := valleles.dedup.length

/-- Script line 103: one more than the largest observed allele code. The
script takes max over the (nonempty) observed alleles; folding max with
initial value 0 agrees on any nonempty list of naturals. -/
def maxalleleplusOf (valleles : List ℕ) : ℕ := valleles.foldr max 0 + 1

/-- Script line 104: global allele frequency vector, one entry per allele code
below maxalleleplusOf, each the count among all haplotypes divided by
n = 2*nindiv. -/
def allelefreqsOf (nindiv : ℕ) (valleles : List ℕ) : List ℚ :=
  (List.range (maxalleleplusOf valleles)).map
    (fun i => (valleles.count i : ℚ) / (2 * nindiv))

/-- Script line 105: minor allele frequency, 1 minus the largest single-allele
frequency. The frequency list is nonempty and its entries are nonnegative, so
folding max with initial value 0 agrees with the max the script takes. -/
def mafOf (nindiv : ℕ) (valleles : List ℕ) : ℚ :=
  1 - (allelefreqsOf nindiv valleles).foldr max 0

/-- Embeds the tabulation loop (script lines 111-116): per-cluster allele
counts and per-cluster sizes, iterating haplotype index i over range nhaps. -/
def tabulate (nhaps : ℕ) (valleles oclust : List ℕ) : List (List ℕ) × List ℕ :=
  let maxclustplus := oclust.foldr max 0 + 1
  let maxalleleplus := maxalleleplusOf valleles
  ((List.range maxclustplus).map (fun j =>
      (List.range maxalleleplus).map (fun a =>
        ((List.range nhaps).filter
          (fun i => oclust.getD i 0 == j && valleles.getD i 0 == a)).length)),
   (List.range maxclustplus).map (fun j =>
      ((List.range nhaps).filter (fun i => oclust.getD i 0 == j)).length))

/-- Embeds the multiallelic rare-allele removal (script lines 117-123): when
more than two distinct alleles are observed and more than two alleles have
nonzero global frequency, every count whose allele has global frequency below
minaf is set to zero, in every cluster row; otherwise the counts are left
unchanged. Every row produced by tabulate has length equal to the frequency
vector, which the rewritten rows index. -/
def applyRareFilter (minaf : ℚ) (nalleles : ℕ) (freqs : List ℚ)
    (counts : List (List ℕ)) : List (List ℕ) :=
  if 2 < nalleles ∧ 2 < (freqs.filter (fun q => decide (0 < q))).length then
    counts.map (fun row => (List.range freqs.length).map (fun i =>
      if freqs.getD i 0 < minaf then 0 else row.getD i 0))
  else counts

/-- Why a variant was skipped before any cluster processing: monomorphic site
(script line 102), minor allele frequency above maxmaf (line 106), or minor
allele frequency below minaf (line 107). -/
inductive SkipReason
  | monomorphic
  | mafHigh
  | mafLow
deriving DecidableEq

/-- Observable effect of processing one variant line of the VCF stream
(script lines 97-124): whether and why it was skipped, whether the
sample-count-mismatch diagnostic fired, the reports with their printed lines,
the diagnostic count, the deletion-counter increment, and histogram keys. -/
structure VariantResult where
  skip : Option SkipReason
  mismatch : Bool
  reports : List ReportLine
  lines : List String
  ndiag : ℕ
  ndel : ℕ
  hist : List ℕ
deriving DecidableEq

/-- The empty result of a skipped variant: no output, no diagnostics, no
counter changes. -/
def skipResult (s : SkipReason) : VariantResult := ⟨some s, false, [], [], 0, 0, []⟩

/-- Embeds the per-variant body of the main loop (script lines 97-124), given
the parsed haplotype alleles, the cluster assignment from the selected cluster
record, the global individual count nindiv (so n = 2*nindiv), the haplotype
count nhaps announced by the cluster file header, and the variant position.
Inside print_gcs the script recomputes nindiv as len(oclust)/2 (exact float
arithmetic on an even integer) and uses it to format identities. -/
def processVariant (minaf : ℚ) (nindiv nhaps : ℕ) (valleles oclust : List ℕ)
    (pos : ℤ) : VariantResult :=
  if nallelesOf valleles = 1 then skipResult .monomorphic else
  let maf := mafOf nindiv valleles
  if maxmaf < maf then skipResult .mafHigh else
  if maf < minaf then skipResult .mafLow else
  let mismatch := decide (valleles.length ≠ nhaps)
  let tc := tabulate nhaps valleles oclust
  let counts2 := applyRareFilter minaf (nallelesOf valleles)
    (allelefreqsOf nindiv valleles) tc.1
  let g := print_gcs valleles oclust nindiv counts2 pos tc.2
  ⟨none, mismatch, g.reports, g.reports.map (fun r => reportLine (oclust.length / 2) r),
    g.ndiag, g.ndel, g.hist⟩

/-- A cluster-assignment record of the IBD stream: its position (the integer
value of its second token) and its remaining tokens. -/
structure ORec where
  pos : ℤ
  toks : List String
deriving DecidableEq

/-- Embeds the record selection (script line 96): the current record when its
absolute distance to the variant position is strictly smaller than the
previous record's, otherwise the previous record. -/
def selectRec (oprev onew : ORec) (pos : ℤ) : ORec :=
  if |onew.pos - pos| < |oprev.pos - pos| then onew else oprev

/-- Embeds the synchronizer advance loop (script lines 89-95): while the
variant position exceeds the current record's position, shift current to
previous and read the next record; an empty read (exhausted stream) resets
the current record to the last one read and stops. Returns the new previous
record, current record, and remaining stream. -/
def advanceSync : ORec → ORec → List ORec → ℤ → ORec × ORec × List ORec
  | oprev, onew, stream, pos =>
    if onew.pos < pos then
      match stream with
      | [] => (onew, onew, [])
      | r :: rest => advanceSync onew r rest pos
    else (oprev, onew, stream)

/-- Drives the synchronizer over a list of variant positions, returning the
cluster record selected for each variant in turn. -/
def runSelect : ORec → ORec → List ORec → List ℤ → List ORec
  | _, _, _, [] => []
  | oprev, onew, stream, pos :: rest =>
    let s := advanceSync oprev onew stream pos
    selectRec s.1 s.2.1 pos :: runSelect s.1 s.2.1 s.2.2 rest

/-- Example variant used by several concrete statements: ten haplotypes for
five individuals, individual k owning haplotypes k (side 0) and k+5 (side 1).
Individuals 0, 1, 3, 4 are homozygous; individual 2 is heterozygous 2|0. -/
def exValleles : List ℕ := [0, 1, 2, 1, 0, 0, 1, 0, 1, 0]

/-- Example cluster assignment paired with exValleles: cluster 0 holds
haplotypes 0, 1, 2, 5, 6 and cluster 1 holds haplotypes 3, 4, 7, 8, 9. -/
def exOclust : List ℕ := [0, 0, 0, 1, 1, 0, 0, 1, 1, 1]

/-- Result of running the per-variant pipeline on the example data with
minaf = 1/10 at position 1000. -/
def exResult : VariantResult := processVariant (1/10) 5 10 exValleles exOclust 1000

/-- A second example variant: nine haplotypes carry allele 0 and one carries
allele 1, so the minor allele frequency is exactly 1/10. -/
def exValleles2 : List ℕ := [0, 1, 0, 0, 0, 0, 0, 0, 0, 0]

lemma mem_le_foldr_max {α : Type} [LinearOrder α] {l : List α} {x : α} (d : α)
    (hx : x ∈ l) : x ≤ l.foldr max d := by
  induction l with
  | nil => simp at hx
  | cons a t ih =>
    rcases List.mem_cons.mp hx with h | h
    · exact h ▸ le_max_left _ _
    · exact le_trans (ih h) (le_max_right _ _)

lemma init_le_foldr_max {α : Type} [LinearOrder α] (l : List α) (d : α) :
    d ≤ l.foldr max d := by
  induction l with
  | nil => exact le_refl d
  | cons a t ih => exact le_trans ih (le_max_right _ _)

lemma mafOf_le_one (nindiv : ℕ) (valleles : List ℕ) : mafOf nindiv valleles ≤ 1 := by
  have h : (0 : ℚ) ≤ (allelefreqsOf nindiv valleles).foldr max 0 :=
    init_le_foldr_max _ _
  unfold mafOf
  linarith

lemma filter_range_getD_map (l : List ℕ) (p : ℕ → Bool) :
    ((List.range l.length).filter (fun i => p (l.getD i 0))).map (fun i => l.getD i 0)
      = l.filter p := by
  induction l with
  | nil => simp
  | cons a t ih =>
    have hpred : ((fun i => p ((a :: t).getD i 0)) ∘ Nat.succ) = fun i => p (t.getD i 0) := by
      funext i; simp
    have hfun : ((fun i => (a :: t).getD i 0) ∘ Nat.succ) = fun i => t.getD i 0 := by
      funext i; simp
    rw [List.length_cons, List.range_succ_eq_map]
    simp only [List.filter_cons, List.getD_cons_zero]
    by_cases hpa : p a
    · rw [if_pos hpa, if_pos hpa, List.map_cons, List.filter_map, hpred,
        List.map_map, hfun, ih, List.getD_cons_zero]
    · rw [if_neg hpa, if_neg hpa, List.filter_map, hpred,
        List.map_map, hfun, ih]

lemma length_filter_range_getD (l : List ℕ) (p : ℕ → Bool) :
    ((List.range l.length).filter (fun i => p (l.getD i 0))).length = l.countP p := by
  have h := congrArg List.length (filter_range_getD_map l p)
  simpa [List.countP_eq_length_filter] using h

lemma dedup_const (a : ℕ) (l : List ℕ) (hne : l ≠ []) (hall : ∀ x ∈ l, x = a) :
    l.dedup = [a] := by
  induction l with
  | nil => exact absurd rfl hne
  | cons b t ih =>
    have hb : b = a := hall b (List.mem_cons_self b t)
    subst hb
    cases t with
    | nil => simp
    | cons c t2 =>
      have hc : c = b := hall c (by simp)
      have hmem : b ∈ c :: t2 := by rw [hc]; exact List.mem_cons_self _ _
      rw [List.dedup_cons_of_mem hmem]
      exact ih (by simp) (fun x hx => hall x (List.mem_cons_of_mem _ hx))

lemma candAlleles_pairwise (x : List ℕ) : (candAlleles x).Pairwise (· < ·) :=
  (List.pairwise_lt_range x.length).filter _

lemma candAlleles_length (x : List ℕ) :
    (candAlleles x).length = x.countP (fun y => decide (minpartsize ≤ y)) := by
  have h := length_filter_range_getD x (fun v => decide (1 < v))
  have hc : x.countP (fun y => decide (minpartsize ≤ y)) = x.countP (fun v => decide (1 < v)) :=
    List.countP_congr (fun y _ => by simp only [minpartsize, decide_eq_true_eq]; omega)
  unfold candAlleles
  rw [hc]
  exact h

lemma runSelect_const (c : ORec) (poss : List ℤ) :
    runSelect c c [] poss = List.replicate poss.length c := by
  induction poss with
  | nil => simp [runSelect]
  | cons p rest ih =>
    have hadv : advanceSync c c [] p = (c, c, []) := by
      unfold advanceSync
      split <;> rfl
    rw [runSelect, hadv]
    simp [selectRec, ih, List.replicate_succ]

lemma which_map_eq_filter (oclust : List ℕ) (j : ℕ) (valleles : List ℕ) (a : ℕ) :
    ((List.range (clusterMembers oclust j).length).filter
      (fun i => valleles.getD ((clusterMembers oclust j).getD i 0) 0 == a)).map
      (fun i => (clusterMembers oclust j).getD i 0)
      = (clusterMembers oclust j).filter (fun h0 => valleles.getD h0 0 == a) :=
  filter_range_getD_map (clusterMembers oclust j) (fun h0 => valleles.getD h0 0 == a)

lemma processCluster_small (valleles oclust : List ℕ) (nindiv j : ℕ) (x : List ℕ) (z : ℕ)
    (pos : ℤ) (h1 : z < minclustsize) :
    processCluster valleles oclust nindiv j x z pos = ⟨none, false, 0, none⟩ := by
  rw [processCluster, if_pos h1]

lemma processCluster_few (valleles oclust : List ℕ) (nindiv j : ℕ) (x : List ℕ) (z : ℕ)
    (pos : ℤ) (h1 : ¬ z < minclustsize)
    (h2 : x.countP (fun y => decide (minpartsize ≤ y)) ≤ 1) :
    processCluster valleles oclust nindiv j x z pos = ⟨none, false, 0, none⟩ := by
  rw [processCluster, if_neg h1]
  simp only [if_pos h2]

lemma processCluster_deletion (valleles oclust : List ℕ) (nindiv j : ℕ) (x : List ℕ)
    (z : ℕ) (pos : ℤ) (h1 : ¬ z < minclustsize)
    (h2 : ¬ x.countP (fun y => decide (minpartsize ≤ y)) ≤ 1)
    (h3 : deletion ≠ 0 ∧
      (clusterMembers oclust j).all (fun h0 => is_homozygous valleles nindiv h0) = true) :
    processCluster valleles oclust nindiv j x z pos =
      ⟨none, decide (2 < x.countP (fun y => decide (minpartsize ≤ y))), 1, none⟩ := by
  rw [processCluster, if_neg h1]
  simp only [if_neg h2, if_pos h3]

lemma processCluster_else (valleles oclust : List ℕ) (nindiv j : ℕ) (x : List ℕ) (z : ℕ)
    (pos : ℤ) (h1 : ¬ z < minclustsize)
    (h2 : ¬ x.countP (fun y => decide (minpartsize ≤ y)) ≤ 1)
    (h3 : ¬ (deletion ≠ 0 ∧
      (clusterMembers oclust j).all (fun h0 => is_homozygous valleles nindiv h0) = true)) :
    processCluster valleles oclust nindiv j x z pos =
      ⟨some ⟨pos,
        (clusterMembers oclust j).filter
          (fun h0 => valleles.getD h0 0 == (candAlleles x).getD 0 0),
        (clusterMembers oclust j).filter
          (fun h0 => valleles.getD h0 0 == (candAlleles x).getD 1 0)⟩,
        decide (2 < x.countP (fun y => decide (minpartsize ≤ y))), 0,
        some (clusterMembers oclust j).length⟩ := by
  rw [processCluster]
  rw [if_neg h1]
  simp only [if_neg h2, if_neg h3]
  rw [which_map_eq_filter, which_map_eq_filter]

lemma processCluster_report_some (valleles oclust : List ℕ) (nindiv j : ℕ) (x : List ℕ)
    (z : ℕ) (pos : ℤ) (r : ReportLine)
    (h : (processCluster valleles oclust nindiv j x z pos).report = some r) :
    minclustsize ≤ z ∧
    2 ≤ x.countP (fun y => decide (minpartsize ≤ y)) ∧
    r.pos = pos ∧
    r.sub0 = (clusterMembers oclust j).filter
      (fun h0 => valleles.getD h0 0 == (candAlleles x).getD 0 0) ∧
    r.sub1 = (clusterMembers oclust j).filter
      (fun h0 => valleles.getD h0 0 == (candAlleles x).getD 1 0) ∧
    (processCluster valleles oclust nindiv j x z pos).histKey
      = some (clusterMembers oclust j).length ∧
    (processCluster valleles oclust nindiv j x z pos).diag
      = decide (2 < x.countP (fun y => decide (minpartsize ≤ y))) := by
  by_cases h1 : z < minclustsize
  · rw [processCluster_small valleles oclust nindiv j x z pos h1] at h
    exact absurd h (by simp)
  by_cases h2 : x.countP (fun y => decide (minpartsize ≤ y)) ≤ 1
  · rw [processCluster_few valleles oclust nindiv j x z pos h1 h2] at h
    exact absurd h (by simp)
  by_cases h3 : deletion ≠ 0 ∧
      (clusterMembers oclust j).all (fun h0 => is_homozygous valleles nindiv h0) = true
  · rw [processCluster_deletion valleles oclust nindiv j x z pos h1 h2 h3] at h
    exact absurd h (by simp)
  · rw [processCluster_else valleles oclust nindiv j x z pos h1 h2 h3] at h ⊢
    simp only [Option.some.injEq] at h
    subst h
    exact ⟨le_of_not_lt h1, by omega, rfl, rfl, rfl, rfl, rfl⟩

lemma getD_map_of_lt {α β : Type} (f : α → β) (l : List α) (j : ℕ) (d : β) (d2 : α)
    (hj : j < l.length) : (l.map f).getD j d = f (l.getD j d2) := by
  rw [List.getD_eq_getElem?_getD, List.getD_eq_getElem?_getD, List.getElem?_map,
    List.getElem?_eq_getElem hj]
  simp

lemma getD_range_map {β : Type} (g : ℕ → β) (n i : ℕ) (d : β) (hi : i < n) :
    ((List.range n).map g).getD i d = g i := by
  rw [getD_map_of_lt g (List.range n) i d 0 (by simpa using hi)]
  congr 1
  rw [List.getD_eq_getElem?_getD, List.getElem?_eq_getElem (by simpa using hi)]
  simp

lemma freqs_ex : allelefreqsOf 5 exValleles = [(5:ℚ)/10, (4:ℚ)/10, (1:ℚ)/10] := by
  norm_num [allelefreqsOf, maxalleleplusOf, exValleles, List.range_succ]

lemma maf_ex : mafOf 5 exValleles = 1/2 := by
  rw [mafOf, freqs_ex]
  norm_num [max_def]

lemma maf_ex2 : mafOf 5 exValleles2 = 1/10 := by
  have e : allelefreqsOf 5 exValleles2 = [(9:ℚ)/10, (1:ℚ)/10] := by
    norm_num [allelefreqsOf, maxalleleplusOf, exValleles2, List.range_succ]
  rw [mafOf, e]
  norm_num [max_def]

/-- C2: for every variant position, among the two buffered cluster records the
synchronizer selects one of them, its absolute position distance to the variant
is minimal among the two, and when the two records are equidistant the earlier
(previous) record is selected. -/
theorem C2_synchronizer_selects_nearest (oprev onew : ORec) (pos : ℤ) :
    (selectRec oprev onew pos = onew ∨ selectRec oprev onew pos = oprev) ∧
    |(selectRec oprev onew pos).pos - pos| ≤ |onew.pos - pos| ∧
    |(selectRec oprev onew pos).pos - pos| ≤ |oprev.pos - pos| ∧
    (|onew.pos - pos| = |oprev.pos - pos| → selectRec oprev onew pos = oprev) := by
  unfold selectRec
  by_cases h : |onew.pos - pos| < |oprev.pos - pos|
  · rw [if_pos h]
    exact ⟨Or.inl rfl, le_refl _, le_of_lt h, fun he => absurd (he ▸ h) (lt_irrefl _)⟩
  · rw [if_neg h]
    exact ⟨Or.inr rfl, le_of_not_lt h, le_refl _, fun _ => rfl⟩

/-- Witness for C2 at a concrete equidistant pair: positions 3 and 7 with the
variant at 5 select the previous record. -/
theorem C2_witness : selectRec ⟨3, []⟩ ⟨7, []⟩ 5 = ⟨3, []⟩ :=
  (C2_synchronizer_selects_nearest ⟨3, []⟩ ⟨7, []⟩ 5).2.2.2 (by decide)

/-- C9: when the cluster stream is exhausted (no records remain) and the
variant position passes the current record, the synchronizer keeps the last
read record as both previous and current, and every remaining variant selects
that record; processing runs to completion over the whole variant list. -/
theorem C9_stream_exhaustion_freeze (oprev onew : ORec) (pos : ℤ) (poss : List ℤ)
    (hadv : onew.pos < pos) :
    advanceSync oprev onew [] pos = (onew, onew, []) ∧
    runSelect oprev onew [] (pos :: poss) = List.replicate (poss.length + 1) onew := by
  have h1 : advanceSync oprev onew [] pos = (onew, onew, []) := by
    rw [advanceSync, if_pos hadv]
  refine ⟨h1, ?_⟩
  rw [runSelect, h1]
  simp [selectRec, runSelect_const, List.replicate_succ]

/-- Witness for C9: with the stream exhausted at current position 5, the
variants at 7, 8, 9 all receive the record at position 5. -/
theorem C9_witness :
    advanceSync ⟨1, []⟩ ⟨5, []⟩ [] 7 = (⟨5, []⟩, ⟨5, []⟩, []) ∧
    runSelect ⟨1, []⟩ ⟨5, []⟩ [] [7, 8, 9] = List.replicate 3 ⟨5, []⟩ :=
  C9_stream_exhaustion_freeze ⟨1, []⟩ ⟨5, []⟩ 7 [8, 9] (by decide)

/-- C4: for a polymorphic variant, a minor allele frequency strictly below
minaf skips the variant entirely (no output for any cluster), while one equal
to minaf passes the frequency filter and the variant is processed. -/
theorem C4_lower_bound_inclusive (minaf : ℚ) (nindiv nhaps : ℕ)
    (valleles oclust : List ℕ) (pos : ℤ) (hpoly : nallelesOf valleles ≠ 1) :
    (mafOf nindiv valleles < minaf →
      processVariant minaf nindiv nhaps valleles oclust pos = skipResult .mafLow) ∧
    (mafOf nindiv valleles = minaf →
      (processVariant minaf nindiv nhaps valleles oclust pos).skip = none) := by
  have hle : mafOf nindiv valleles ≤ 1 := mafOf_le_one nindiv valleles
  have hmax : ¬ maxmaf < mafOf nindiv valleles := by
    rw [maxmaf]; exact not_lt_of_le hle
  constructor
  · intro hlow
    simp [processVariant, hpoly, hmax, hlow]
  · intro heq
    have hnlow : ¬ mafOf nindiv valleles < minaf := by rw [heq]; exact lt_irrefl _
    simp [processVariant, hpoly, hmax, hnlow]

/-- Witness for C4: with ten haplotypes of which one carries the minor allele,
the minor allele frequency is exactly 1/10; with minaf 2/10 the variant is
skipped as rare, with minaf 1/10 it is retained. -/
theorem C4_witness :
    (processVariant (2/10) 5 10 exValleles2 exOclust 1000 = skipResult .mafLow) ∧
    (processVariant (1/10) 5 10 exValleles2 exOclust 1000).skip = none :=
  ⟨(C4_lower_bound_inclusive (2/10) 5 10 exValleles2 exOclust 1000 (by decide)).1
      (by rw [maf_ex2]; norm_num),
   (C4_lower_bound_inclusive (1/10) 5 10 exValleles2 exOclust 1000 (by decide)).2 maf_ex2⟩

/-- C8: a variant at which all haplotypes carry one and the same allele code is
skipped as monomorphic: no report line, no diagnostic, and both running
counters unchanged. -/
theorem C8_monomorphic_skip (minaf : ℚ) (nindiv nhaps : ℕ) (valleles oclust : List ℕ)
    (pos : ℤ) (a : ℕ) (hne : valleles ≠ []) (hall : ∀ v ∈ valleles, v = a) :
    processVariant minaf nindiv nhaps valleles oclust pos = skipResult .monomorphic := by
  have h1 : nallelesOf valleles = 1 := by
    unfold nallelesOf
    rw [dedup_const a valleles hne hall]
    rfl
  rw [processVariant, if_pos h1]

/-- Witness for C8 at a concrete monomorphic variant. -/
theorem C8_witness :
    processVariant (1/10) 2 4 [3, 3, 3, 3] [0, 0, 0, 0] 50 = skipResult .monomorphic :=
  C8_monomorphic_skip (1/10) 2 4 [3, 3, 3, 3] [0, 0, 0, 0] 50 3 (by decide) (by decide)

/-- C10: for every variant with at least one haplotype whose allele list has
the expected length 2*nindiv, the minor allele frequency is strictly below
1.0, so the fixed upper bound never skips a variant. -/
theorem C10_maxmaf_never_skips (minaf : ℚ) (nindiv nhaps : ℕ)
    (valleles oclust : List ℕ) (pos : ℤ)
    (hne : valleles ≠ []) (hlen : valleles.length = 2 * nindiv) :
    mafOf nindiv valleles < 1 ∧
    (processVariant minaf nindiv nhaps valleles oclust pos).skip ≠ some .mafHigh := by
  obtain ⟨a, ha⟩ := List.exists_mem_of_ne_nil valleles hne
  have hcount : 0 < valleles.count a := List.count_pos_iff.mpr ha
  have hlenpos : 0 < valleles.length := List.length_pos_of_ne_nil hne
  have hnpos : (0 : ℚ) < 2 * nindiv := by
    have : 0 < 2 * nindiv := hlen ▸ hlenpos
    exact_mod_cast this
  have hfreq : (0 : ℚ) < (valleles.count a : ℚ) / (2 * nindiv) := by
    apply div_pos
    · exact_mod_cast hcount
    · exact hnpos
  have hamem : a < maxalleleplusOf valleles := by
    unfold maxalleleplusOf
    have := mem_le_foldr_max 0 ha
    omega
  have hmem : (valleles.count a : ℚ) / (2 * nindiv) ∈ allelefreqsOf nindiv valleles := by
    unfold allelefreqsOf
    exact List.mem_map.mpr ⟨a, List.mem_range.mpr hamem, rfl⟩
  have hmax : (0 : ℚ) < (allelefreqsOf nindiv valleles).foldr max 0 :=
    lt_of_lt_of_le hfreq (mem_le_foldr_max 0 hmem)
  have hmaf : mafOf nindiv valleles < 1 := by
    unfold mafOf
    linarith
  refine ⟨hmaf, ?_⟩
  have hmaxskip : ¬ maxmaf < mafOf nindiv valleles := by
    rw [maxmaf]; exact not_lt_of_le (le_of_lt hmaf)
  by_cases h1 : nallelesOf valleles = 1
  · simp [processVariant, h1, skipResult]
  by_cases h2 : mafOf nindiv valleles < minaf
  · simp [processVariant, h1, hmaxskip, h2, skipResult]
  · simp [processVariant, h1, hmaxskip, h2, skipResult]

/-- Witness for C10 on the example variant. -/
theorem C10_witness :
    mafOf 5 exValleles < 1 ∧
    (processVariant (1/10) 5 10 exValleles exOclust 1000).skip ≠ some .mafHigh :=
  C10_maxmaf_never_skips (1/10) 5 10 exValleles exOclust 1000 (by decide) (by decide)

lemma rare_ex : applyRareFilter (1/10) (nallelesOf exValleles) (allelefreqsOf 5 exValleles)
    [[2, 2, 1], [3, 2, 0]] = [[2, 2, 1], [3, 2, 0]] := by
  have hnall : nallelesOf exValleles = 3 := by decide
  rw [freqs_ex, hnall, applyRareFilter]
  have d0 : decide ((0:ℚ) < 5/10) = true := by simp only [decide_eq_true_eq]; norm_num
  have d1 : decide ((0:ℚ) < 4/10) = true := by simp only [decide_eq_true_eq]; norm_num
  have d2 : decide ((0:ℚ) < 1/10) = true := by simp only [decide_eq_true_eq]; norm_num
  have hcond : 2 < 3 ∧
      2 < (([(5:ℚ)/10, (4:ℚ)/10, (1:ℚ)/10]).filter (fun q => decide (0 < q))).length := by
    refine ⟨by norm_num, ?_⟩
    simp [List.filter_cons, d0, d1, d2]
  rw [if_pos hcond]
  have c0 : ¬ ((5:ℚ)/10 < 1/10) := by norm_num
  have c1 : ¬ ((4:ℚ)/10 < 1/10) := by norm_num
  have c2 : ¬ ((1:ℚ)/10 < 1/10) := by norm_num
  norm_num [List.range_succ, c0, c1, c2]

lemma gcs_ex : print_gcs exValleles exOclust 5 [[2, 2, 1], [3, 2, 0]] 1000 [5, 5]
    = ⟨[⟨1000, [0, 5], [1, 6]⟩, ⟨1000, [4, 7, 9], [3, 8]⟩], 0, 0, [5, 5]⟩ := by
  decide

lemma exResult_eq : exResult =
    ⟨none, false, [⟨1000, [0, 5], [1, 6]⟩, ⟨1000, [4, 7, 9], [3, 8]⟩],
      ([⟨1000, [0, 5], [1, 6]⟩, ⟨1000, [4, 7, 9], [3, 8]⟩] : List ReportLine).map
        (fun r => reportLine (exOclust.length / 2) r),
      0, 0, [5, 5]⟩ := by
  have h1 : nallelesOf exValleles ≠ 1 := by decide
  have h2 : ¬ maxmaf < mafOf 5 exValleles := by rw [maf_ex, maxmaf]; norm_num
  have h3 : ¬ mafOf 5 exValleles < 1/10 := by rw [maf_ex]; norm_num
  have htab1 : (tabulate 10 exValleles exOclust).1 = [[2, 2, 1], [3, 2, 0]] := by decide
  have htab2 : (tabulate 10 exValleles exOclust).2 = [5, 5] := by decide
  have hmm : (decide (exValleles.length ≠ 10)) = false := by decide
  rw [exResult, processVariant]
  simp only [if_neg h1, if_neg h2, if_neg h3, htab1, htab2, rare_ex, gcs_ex, hmm]

/-- C1 counterexample: on the example variant (which passes the frequency
filter, skip is none), cluster 0 has size 5 and exactly the two candidate
alleles 0 and 1 (in-cluster counts 2 and 2); the carriers of those two
candidate alleles within the cluster are the haplotypes 0, 1, 5, 6 and all of
them belong to homozygous individuals. The claim then demands a deletion-
counter increment of one and no report for this cluster, but the code checks
homozygosity of ALL cluster members, including haplotype 2 whose individual is
heterozygous, so it increments nothing (ndel stays 0) and does emit the report
for cluster 0 at this position. -/
theorem C1_counterexample :
    exResult.skip = none ∧
    (tabulate 10 exValleles exOclust).2.getD 0 0 = 5 ∧
    candAlleles [2, 2, 1] = [0, 1] ∧
    ((List.range 10).filter (fun i => exOclust.getD i 0 == 0
        && (exValleles.getD i 0 == 0 || exValleles.getD i 0 == 1))) = [0, 1, 5, 6] ∧
    ([0, 1, 5, 6] : List ℕ).all (fun h => is_homozygous exValleles 5 h) = true ∧
    exResult.ndel = 0 ∧
    exResult.reports.getD 0 ⟨0, [], []⟩ = ⟨1000, [0, 5], [1, 6]⟩ := by
  have hE := exResult_eq
  exact ⟨by rw [hE], by decide, by decide, by decide, by decide, by rw [hE],
    by rw [hE]; rfl⟩

/-- C1 amended: the deletion classification fires (deletion counter
incremented by one, report and histogram update suppressed) exactly when every
haplotype of the whole cluster — carriers of non-candidate alleles included,
not only the carriers of the two candidate alleles — belongs to a homozygous
individual, for a cluster of size at least 4 with at least two candidate
alleles. -/
theorem C1_deletion_requires_all_members_homozygous
    (valleles oclust : List ℕ) (nindiv j : ℕ) (x : List ℕ) (z : ℕ) (pos : ℤ)
    (hz : minclustsize ≤ z)
    (hcand : 2 ≤ x.countP (fun y => decide (minpartsize ≤ y)))
    (hall : ∀ h ∈ clusterMembers oclust j, is_homozygous valleles nindiv h = true) :
    (processCluster valleles oclust nindiv j x z pos).report = none ∧
    (processCluster valleles oclust nindiv j x z pos).ndelInc = 1 ∧
    (processCluster valleles oclust nindiv j x z pos).histKey = none := by
  have h1 : ¬ z < minclustsize := not_lt_of_le hz
  have h2 : ¬ x.countP (fun y => decide (minpartsize ≤ y)) ≤ 1 := by omega
  have h3 : deletion ≠ 0 ∧
      (clusterMembers oclust j).all (fun h0 => is_homozygous valleles nindiv h0) = true := by
    refine ⟨by simp [deletion], List.all_eq_true.mpr hall⟩
  rw [processCluster_deletion valleles oclust nindiv j x z pos h1 h2 h3]
  exact ⟨rfl, rfl, rfl⟩

/-- Witness for the amended C1: a cluster of four haplotypes, all owned by
homozygous individuals, with two candidate alleles. -/
theorem C1_witness :
    (processCluster [0, 1, 0, 1] [0, 0, 0, 0] 2 0 [2, 2] 4 99).report = none ∧
    (processCluster [0, 1, 0, 1] [0, 0, 0, 0] 2 0 [2, 2] 4 99).ndelInc = 1 ∧
    (processCluster [0, 1, 0, 1] [0, 0, 0, 0] 2 0 [2, 2] 4 99).histKey = none :=
  C1_deletion_requires_all_members_homozygous [0, 1, 0, 1] [0, 0, 0, 0] 2 0 [2, 2] 4 99
    (by decide) (by decide) (by decide)

/-- C3 counterexample: on the example variant a report is emitted for
cluster 0 whose two subclusters have sizes 2 and 2 (sum 4), yet the histogram
receives the keys 5 and 5 — the full cluster sizes — and no key 4 at all, so
the histogram is not updated at the key given by the sum of the two reported
subcluster sizes. -/
theorem C3_counterexample :
    exResult.reports.getD 0 ⟨0, [], []⟩ = ⟨1000, [0, 5], [1, 6]⟩ ∧
    ((2 : ℕ) + 2 = 4) ∧
    exResult.hist = [5, 5] ∧
    exResult.hist.count 4 = 0 := by
  have hE := exResult_eq
  exact ⟨by rw [hE]; rfl, rfl, by rw [hE], by rw [hE]; rfl⟩

/-- C3 amended: whenever a report is emitted for a cluster, the histogram key
recorded is the total number of haplotypes in that cluster (which equals the
sum of the two subcluster sizes only when every cluster member carries one of
the two candidate alleles). -/
theorem C3_histogram_key_is_cluster_size
    (valleles oclust : List ℕ) (nindiv j : ℕ) (x : List ℕ) (z : ℕ) (pos : ℤ)
    (r : ReportLine)
    (h : (processCluster valleles oclust nindiv j x z pos).report = some r) :
    (processCluster valleles oclust nindiv j x z pos).histKey
      = some (clusterMembers oclust j).length :=
  (processCluster_report_some valleles oclust nindiv j x z pos r h).2.2.2.2.2.1

/-- Witness for the amended C3 at the example cluster 0: the histogram key is
the cluster size. -/
theorem C3_witness :
    (processCluster exValleles exOclust 5 0 [2, 2, 1] 5 1000).histKey
      = some (clusterMembers exOclust 0).length :=
  C3_histogram_key_is_cluster_size exValleles exOclust 5 0 [2, 2, 1] 5 1000
    ⟨1000, [0, 5], [1, 6]⟩ (by decide)

lemma candAlleles_mem (x : List ℕ) (b : ℕ) :
    b ∈ candAlleles x ↔ b < x.length ∧ minpartsize ≤ x.getD b 0 := by
  unfold candAlleles
  rw [List.mem_filter, List.mem_range]
  simp only [decide_eq_true_eq, minpartsize]
  omega

lemma candAlleles_first_two (x : List ℕ) (hlen : 2 ≤ (candAlleles x).length) :
    (candAlleles x).getD 0 0 ∈ candAlleles x ∧
    (candAlleles x).getD 1 0 ∈ candAlleles x ∧
    (candAlleles x).getD 0 0 < (candAlleles x).getD 1 0 ∧
    (∀ b ∈ candAlleles x, (candAlleles x).getD 0 0 ≤ b) ∧
    (∀ b ∈ candAlleles x, b ≠ (candAlleles x).getD 0 0 → (candAlleles x).getD 1 0 ≤ b) := by
  have hp := candAlleles_pairwise x
  rcases hcl : candAlleles x with _ | ⟨c0, _ | ⟨c1, rest⟩⟩
  · rw [hcl] at hlen; simp at hlen
  · rw [hcl] at hlen; simp at hlen
  · rw [hcl] at hp
    obtain ⟨h0, hp1⟩ := List.pairwise_cons.mp hp
    obtain ⟨h1, _⟩ := List.pairwise_cons.mp hp1
    refine ⟨by simp, by simp, h0 c1 (by simp), ?_, ?_⟩
    · intro b hb
      rcases List.mem_cons.mp hb with rfl | hb
      · exact le_refl _
      · exact le_of_lt (h0 b hb)
    · intro b hb hne
      rcases List.mem_cons.mp hb with rfl | hb
      · exact absurd rfl hne
      rcases List.mem_cons.mp hb with rfl | hb
      · exact le_refl _
      · exact le_of_lt (h1 b hb)

/-- C5: when more than two distinct alleles are observed and more than two
alleles have nonzero global frequency, every entry of every cluster's count
row whose allele has global frequency strictly below minaf becomes zero while
all other entries are unchanged; when the two conditions do not both hold, the
count tables are returned entirely unchanged. -/
theorem C5_rare_allele_zeroing (minaf : ℚ) (nalleles : ℕ) (freqs : List ℚ)
    (counts : List (List ℕ)) :
    (2 < nalleles → 2 < (freqs.filter (fun q => decide (0 < q))).length →
      ∀ j i, j < counts.length → i < freqs.length →
        ((applyRareFilter minaf nalleles freqs counts).getD j []).getD i 0
          = if freqs.getD i 0 < minaf then 0 else (counts.getD j []).getD i 0) ∧
    (¬ (2 < nalleles ∧ 2 < (freqs.filter (fun q => decide (0 < q))).length) →
      applyRareFilter minaf nalleles freqs counts = counts) := by
  constructor
  · intro hna hnz j i hj hi
    rw [applyRareFilter, if_pos ⟨hna, hnz⟩]
    rw [getD_map_of_lt _ counts j [] [] hj]
    rw [getD_range_map _ freqs.length i 0 hi]
  · intro hcond
    rw [applyRareFilter, if_neg hcond]

/-- Witness for C5: a truly multiallelic frequency vector zeroes (or keeps)
entries according to the threshold comparison, and a biallelic one leaves the
counts untouched. -/
theorem C5_witness :
    ((applyRareFilter (1/2) 3 [(1:ℚ)/4, (2:ℚ)/3, (2:ℚ)/3] [[1, 2, 3]]).getD 0 []).getD 0 0
      = (if ([(1:ℚ)/4, (2:ℚ)/3, (2:ℚ)/3]).getD 0 0 < 1/2 then 0
          else (([[1, 2, 3]] : List (List ℕ)).getD 0 []).getD 0 0) ∧
    applyRareFilter (1/2) 2 [(1:ℚ)/4, (3:ℚ)/4] [[1, 2]] = [[1, 2]] :=
  ⟨(C5_rare_allele_zeroing (1/2) 3 [(1:ℚ)/4, (2:ℚ)/3, (2:ℚ)/3] [[1, 2, 3]]).1
      (by norm_num) (by norm_num [List.filter]) 0 0 (by norm_num) (by norm_num),
   (C5_rare_allele_zeroing (1/2) 2 [(1:ℚ)/4, (3:ℚ)/4] [[1, 2]]).2 (by simp)⟩

/-- C6: for a cluster of size at least 4 with more than two candidate alleles
(in-cluster count at least minpartsize = 2), the diagnostic fires; with zero
or one candidate alleles nothing at all is produced; and whenever a report is
emitted, its two subclusters are the carriers of the first and second
candidate allele in ascending allele-code order — the two smallest candidate
codes, both genuinely candidates. -/
theorem C6_more_than_two_candidates
    (valleles oclust : List ℕ) (nindiv j : ℕ) (x : List ℕ) (z : ℕ) (pos : ℤ) :
    (minclustsize ≤ z → 2 < x.countP (fun y => decide (minpartsize ≤ y)) →
      (processCluster valleles oclust nindiv j x z pos).diag = true) ∧
    (x.countP (fun y => decide (minpartsize ≤ y)) ≤ 1 →
      processCluster valleles oclust nindiv j x z pos = ⟨none, false, 0, none⟩) ∧
    (∀ r, (processCluster valleles oclust nindiv j x z pos).report = some r →
      2 ≤ (candAlleles x).length ∧
      ((candAlleles x).getD 0 0 < x.length ∧
        minpartsize ≤ x.getD ((candAlleles x).getD 0 0) 0) ∧
      ((candAlleles x).getD 1 0 < x.length ∧
        minpartsize ≤ x.getD ((candAlleles x).getD 1 0) 0) ∧
      (candAlleles x).getD 0 0 < (candAlleles x).getD 1 0 ∧
      (∀ b, b < x.length → minpartsize ≤ x.getD b 0 → (candAlleles x).getD 0 0 ≤ b) ∧
      (∀ b, b < x.length → minpartsize ≤ x.getD b 0 → b ≠ (candAlleles x).getD 0 0 →
        (candAlleles x).getD 1 0 ≤ b) ∧
      r.sub0 = (clusterMembers oclust j).filter
        (fun h0 => valleles.getD h0 0 == (candAlleles x).getD 0 0) ∧
      r.sub1 = (clusterMembers oclust j).filter
        (fun h0 => valleles.getD h0 0 == (candAlleles x).getD 1 0)) := by
  refine ⟨?_, ?_, ?_⟩
  · intro hz hdp
    have h1 : ¬ z < minclustsize := not_lt_of_le hz
    have h2 : ¬ x.countP (fun y => decide (minpartsize ≤ y)) ≤ 1 := by omega
    by_cases h3 : deletion ≠ 0 ∧
        (clusterMembers oclust j).all (fun h0 => is_homozygous valleles nindiv h0) = true
    · rw [processCluster_deletion valleles oclust nindiv j x z pos h1 h2 h3]
      simpa using hdp
    · rw [processCluster_else valleles oclust nindiv j x z pos h1 h2 h3]
      simpa using hdp
  · intro hdp
    by_cases h1 : z < minclustsize
    · exact processCluster_small valleles oclust nindiv j x z pos h1
    · exact processCluster_few valleles oclust nindiv j x z pos h1 hdp
  · intro r h
    obtain ⟨-, hdp, -, hs0, hs1, -, -⟩ :=
      processCluster_report_some valleles oclust nindiv j x z pos r h
    have hlen : 2 ≤ (candAlleles x).length := by rw [candAlleles_length]; exact hdp
    obtain ⟨hm0, hm1, hlt, hmin0, hmin1⟩ := candAlleles_first_two x hlen
    refine ⟨hlen, (candAlleles_mem x _).mp hm0, (candAlleles_mem x _).mp hm1, hlt,
      ?_, ?_, hs0, hs1⟩
    · intro b hb1 hb2
      exact hmin0 b ((candAlleles_mem x b).mpr ⟨hb1, hb2⟩)
    · intro b hb1 hb2 hb3
      exact hmin1 b ((candAlleles_mem x b).mpr ⟨hb1, hb2⟩) hb3

/-- Witness for C6: a cluster of six haplotypes with three candidate alleles
triggers the diagnostic. -/
theorem C6_witness :
    (processCluster [0, 1, 2, 0, 1, 2] [0, 0, 0, 0, 0, 0] 3 0 [2, 2, 2] 6 77).diag = true :=
  (C6_more_than_two_candidates [0, 1, 2, 0, 1, 2] [0, 0, 0, 0, 0, 0] 3 0 [2, 2, 2] 6 77).1
    (by decide) (by decide)

/-- C7: every emitted report line is the space-intercalation (with the
trailing space the script prints after the last token) of the tokens: variant
position, size of subcluster 0, size of subcluster 1, then each haplotype
identity of subcluster 0 followed by each of subcluster 1, formatted as the
zero-based individual index, a colon, and the side; subcluster 0 holds the
carriers of the first candidate allele and subcluster 1 those of the second,
and every printed side is 0 or 1. -/
theorem C7_report_format
    (valleles oclust : List ℕ) (nindiv j : ℕ) (x : List ℕ) (z : ℕ) (pos : ℤ)
    (r : ReportLine) (nindivF : ℕ)
    (h : (processCluster valleles oclust nindiv j x z pos).report = some r)
    (hn : oclust.length = 2 * nindivF) (hpos : 0 < nindivF) :
    reportLine nindivF r
      = String.intercalate spaceSep
          ([toString r.pos, toString r.sub0.length, toString r.sub1.length]
            ++ (r.sub0 ++ r.sub1).map
              (fun i => toString (i % nindivF) ++ colonSep ++ toString (i / nindivF)))
        ++ spaceSep ∧
    r.pos = pos ∧
    r.sub0 = (clusterMembers oclust j).filter
      (fun h0 => valleles.getD h0 0 == (candAlleles x).getD 0 0) ∧
    r.sub1 = (clusterMembers oclust j).filter
      (fun h0 => valleles.getD h0 0 == (candAlleles x).getD 1 0) ∧
    (∀ i ∈ r.sub0 ++ r.sub1, i % nindivF < nindivF ∧ (i / nindivF = 0 ∨ i / nindivF = 1)) := by
  obtain ⟨-, -, hposeq, hs0, hs1, -, -⟩ :=
    processCluster_report_some valleles oclust nindiv j x z pos r h
  refine ⟨rfl, hposeq, hs0, hs1, ?_⟩
  intro i hi
  have hmem : i ∈ clusterMembers oclust j := by
    rcases List.mem_append.mp hi with hi0 | hi1
    · rw [hs0] at hi0; exact (List.mem_filter.mp hi0).1
    · rw [hs1] at hi1; exact (List.mem_filter.mp hi1).1
  have hlt : i < oclust.length := by
    unfold clusterMembers at hmem
    exact List.mem_range.mp (List.mem_filter.mp hmem).1
  rw [hn] at hlt
  refine ⟨Nat.mod_lt i hpos, ?_⟩
  by_cases hc : i < nindivF
  · exact Or.inl (Nat.div_eq_of_lt hc)
  · refine Or.inr (Nat.div_eq_of_lt_le (by omega) (by omega))

/-- Witness for C7 at the example cluster 0: the first subcluster holds the
carriers of the smallest candidate allele, and the report position is the
variant position. -/
theorem C7_witness :
    (⟨1000, [0, 5], [1, 6]⟩ : ReportLine).pos = 1000 ∧
    (⟨1000, [0, 5], [1, 6]⟩ : ReportLine).sub0
      = (clusterMembers exOclust 0).filter
          (fun h0 => exValleles.getD h0 0 == (candAlleles [2, 2, 1]).getD 0 0) :=
  ⟨(C7_report_format exValleles exOclust 5 0 [2, 2, 1] 5 1000 ⟨1000, [0, 5], [1, 6]⟩ 5
      (by decide) (by decide) (by decide)).2.1,
   (C7_report_format exValleles exOclust 5 0 [2, 2, 1] 5 1000 ⟨1000, [0, 5], [1, 6]⟩ 5
      (by decide) (by decide) (by decide)).2.2.1⟩

end FindGcs
